import Mathlib

/-!
Verification of the `Container` component of a retained-mode 2D scene graph
(`src/Container.ts`).  Two embeddings are used:

* a *world* model (`World := Nat → NodeRec`) for the mutable parent/index/children
  bookkeeping of `add` / `remove` / `_setChildrenIndices`;
* a rose-tree model (`KTree`) for subtree search (`find` / `findOne` /
  `_generalFind` / `_descendants`), draw traces (`drawScene` / `drawHit` /
  `_drawChildren`), cache-invalidation (`_clearSelfAndDescendantCache`) and
  bounding-box aggregation (`getClientRect`).

External collaborators (the base `Node` class, `Shape`, the `Factory` accessor
generator, the drawing context) are not part of the repository source; where
one of them decides a behaviour it is modelled from the specification and the
definition's doc comment says so.

The file is organised as definitions first, then theorems.
-/

namespace Konva

/-! ## Definitions: world model (parent / index / children bookkeeping) -/

/-- State of a single node: back-reference to its parent, its recorded index in
the parent's child sequence, and (for containers) the ordered list of child
ids.  Mirrors the fields `parent`, `index`, `children` used by
`Container.add`, `Container._setChildrenIndices` and node removal. -/
structure NodeRec where
  parent : Option Nat
  index : Nat
  children : List Nat
deriving DecidableEq

/-- A scene-graph heap: every node id maps to its record. -/
def World : Type := Nat → NodeRec

/-- Pointwise update of one node record. -/
def upd (w : World) (x : Nat) (f : NodeRec → NodeRec) : World :=
  fun y => if y = x then f (w y) else w y

/-- The acceptance path of `Container.add` (src/Container.ts lines 128-138):
`child._clearCaches()` (external, touches no bookkeeping field), then
`child.index = this.getChildren().length`, `child.parent = this`,
`this.getChildren().push(child)`.  The `_fire('add')` / `_requestDraw()` calls
are external side effects with no bookkeeping state. -/
def attachChild (w : World) (c k : Nat) : World :=
  let n := (w c).children.length
  let w1 := upd w k fun r => { r with index := n }
  let w2 := upd w1 k fun r => { r with parent := some c }
  upd w2 c fun r => { r with children := r.children ++ [k] }

/-- `Container._setChildrenIndices` (src/Container.ts lines 324-329):
`this.children?.forEach((child, n) => child.index = n)`.  The loop is unrolled
with an explicit position counter; `_requestDraw()` is external. -/
def setIdxFrom (w : World) (n : Nat) : List Nat → World
  | [] => w
  | k :: rest => setIdxFrom (upd w k fun r => { r with index := n }) (n + 1) rest

/-- `Container._setChildrenIndices` applied to container `c`. -/
def setChildrenIndices (w : World) (c : Nat) : World :=
  setIdxFrom w 0 (w c).children

/-- Modelled from the spec: node removal is external (`Node.remove`, consumed
from the base node per §6).  Per §3 a node "is detached via removal (clears
parent/index)": the child is spliced out of its parent's sequence at its
recorded index, the parent renumbers the remaining children via the source's
`_setChildrenIndices`, and the child's parent/index links are cleared. -/
def detachFrom (w : World) (a k : Nat) : World :=
  let w1 := upd w a fun r => { r with children := r.children.eraseIdx (w k).index }
  let w2 := setIdxFrom w1 0 (w1 a).children
  upd w2 k fun r => { r with parent := none, index := 0 }

/-- Removal of node `k`: detach from its parent if it has one, else no-op. -/
def removeOp (w : World) (k : Nat) : World :=
  match (w k).parent with
  | none => w
  | some a => detachFrom w a k

/-- `Container.add` for a single child (src/Container.ts lines 116-139): if the
child already has a parent it is moved (`child.moveTo(this)`; `Node.moveTo` is
external and modelled from spec I2: "attempting to add it instead relocates it
(detach + reattach)"); otherwise `_validateAdd` runs (abstracted as the
predicate `val`; a validation failure throws before any mutation, leaving the
world unchanged) and the child is attached. -/
def addOp (val : Nat → Bool) (w : World) (c k : Nat) : World :=
  match (w k).parent with
  | some _ => attachChild (removeOp w k) c k
  | none => if val k then attachChild w c k else w

/-- One mutation of the tree: `add` on some container, or removal of a node. -/
inductive Op where
  | add (c k : Nat)
  | rem (k : Nat)

/-- Run one operation. -/
def applyOp (val : Nat → Bool) (w : World) : Op → World
  | .add c k => addOp val w c k
  | .rem k => removeOp w k

/-- Run a sequence of operations in order. -/
def applyOps (val : Nat → Bool) (ops : List Op) (w : World) : World :=
  ops.foldl (applyOp val) w

/-- Invariant I1: for every container `c` and child `k` at position `i` of
`c`'s sequence, `k.parent = c` and `k.index = i`. -/
def Inv1 (w : World) : Prop :=
  ∀ c i k, (w c).children[i]? = some k → (w k).parent = some c ∧ (w k).index = i

/-- A world of detached childless nodes. -/
def emptyWorld : World := fun _ => ⟨none, 0, []⟩

/-- A world in which container `5` holds exactly the child `7`. -/
def demoWorld : World := fun n =>
  if n = 5 then ⟨none, 0, [7]⟩
  else if n = 7 then ⟨some 5, 0, []⟩
  else ⟨none, 0, []⟩

/-! ## Definitions: tree model

A rose tree of nodes carrying the attributes that `Container`'s search, draw,
cache-invalidation and bounding-box code reads.  External state (the
absolute-transform chain, the cached bitmaps, the hit-gate) appears as opaque
data on the node. -/

/-- An axis-aligned rectangle, as produced by `getClientRect`. -/
structure Rect where
  x : Rat
  y : Rat
  w : Rat
  h : Rat
deriving DecidableEq

/-- A 2D affine transform (the 6-element matrix consumed from the external
drawing surface and `Node` transform stack). -/
structure Affine where
  a : Rat
  b : Rat
  c : Rat
  d : Rat
  tx : Rat
  ty : Rat
deriving DecidableEq

/-- The identity transform. -/
def idAffine : Affine := ⟨1, 0, 0, 1, 0, 0⟩

/-- Apply an affine transform to a point. -/
def applyAffine (m : Affine) (p : Rat × Rat) : Rat × Rat :=
  (m.a * p.1 + m.c * p.2 + m.tx, m.b * p.1 + m.d * p.2 + m.ty)

/-- Attributes of one scene-graph node read by the `Container` algorithms.
`isShape` distinguishes leaf drawables (the external `Shape` class) from
containers; `hitGate` is the external `Node.shouldDrawHit` verdict; `cache`
is the spec §9 tagged state `Uncached | Cached(scene_bitmap, hit_bitmap)`
(bitmap contents are opaque ids); `attrCache` is the base node's
computed-attribute cache slot cleared by `_clearSelfAndDescendantCache`;
`clipX/clipY/clipWidth/clipHeight` are the `Factory`-generated clip accessors
(absent = `undefined`); `clipFunc` records whether a user clip callback is
set; `gco` is `globalCompositeOperation`; `shapeRect` is the client rect an
external `Shape` reports relative to its parent; `tf` is the node's own
transform (relative to its parent), consumed from the external `Node`. -/
structure NodeData where
  id : Nat
  isShape : Bool
  visible : Bool
  hitGate : Bool
  cache : Option (Nat × Nat)
  attrCache : Bool
  clipX : Option Rat
  clipY : Option Rat
  clipWidth : Option Rat
  clipHeight : Option Rat
  clipFunc : Bool
  gco : String
  shapeRect : Rect
  tf : Affine
deriving DecidableEq

/-- A scene-graph subtree: a node and its ordered children. -/
inductive KTree where
  | node : NodeData → List KTree → KTree

/-- Attribute record of the root of a subtree. -/
def KTree.data : KTree → NodeData
  | .node d _ => d

/-- Ordered children of the root of a subtree. -/
def KTree.children : KTree → List KTree
  | .node _ cs => cs

/-! ## Definitions: subtree search (`_descendants`, `_generalFind`) -/

/-- `Container._descendants` (src/Container.ts lines 233-250), generic in the
state `σ` mutated by the callback's closure: for each child run the callback;
stop if it asks to; skip recursion when the child has no children
(`!child.hasChildren()`); otherwise recurse and stop if the recursion asks
to.  Returns the final state and the "should stop" boolean. -/
def descend {σ : Type} (fn : σ → KTree → σ × Bool) (st : σ) :
    List KTree → σ × Bool
  | [] => (st, false)
  | c :: rest =>
    let r1 := fn st c
    if r1.2 then (r1.1, true)
    else if c.children.isEmpty then descend fn r1.1 rest
    else
      let r2 := descend fn r1.1 c.children
      if r2.2 then (r2.1, true)
      else descend fn r2.1 rest
termination_by cs => sizeOf cs
decreasing_by
  all_goals (rcases c with ⟨d, cs⟩; simp [KTree.children]; try omega)

/-- The callback `_generalFind` passes to `_descendants` (src/Container.ts
lines 220-229): `valid = node._isMatch(selector)` (matching is delegated to
the external node matcher, abstracted as the predicate `sel`); push on match;
stop iff matched and in `findOne` mode. -/
def findCb (sel : KTree → Bool) (one : Bool) (st : List KTree) (n : KTree) :
    List KTree × Bool :=
  let valid := sel n
  (if valid then st ++ [n] else st, valid && one)

/-- `Container._generalFind` (src/Container.ts lines 214-232): run the
traversal from this container's children with an initially empty result. -/
def generalFind (sel : KTree → Bool) (one : Bool) (t : KTree) : List KTree :=
  (descend (findCb sel one) [] t.children).1

/-- `Container.find` (src/Container.ts lines 187-191). -/
def find (sel : KTree → Bool) (t : KTree) : List KTree :=
  generalFind sel false t

/-- `Container.findOne` (src/Container.ts lines 210-213):
`result.length > 0 ? result[0] : undefined`. -/
def findOne (sel : KTree → Bool) (t : KTree) : Option KTree :=
  (generalFind sel true t).head?

/-- Pre-order listing of a forest: each root, then its subtree, then the
following siblings. -/
def preorderF : List KTree → List KTree
  | [] => []
  | c :: rest => c :: (preorderF c.children ++ preorderF rest)
termination_by cs => sizeOf cs
decreasing_by
  all_goals (rcases c with ⟨d, cs⟩; simp [KTree.children]; try omega)

/-- The `_generalFind` callback instrumented to also record, in the first
component, every node the traversal hands to the callback (the visit order).
The match accumulation and the stop signal are exactly those of `findCb`. -/
def findVisCb (sel : KTree → Bool) (one : Bool) (st : List KTree × List KTree)
    (n : KTree) : (List KTree × List KTree) × Bool :=
  let valid := sel n
  ((st.1 ++ [n], if valid then st.2 ++ [n] else st.2), valid && one)

/-- The list of nodes visited by the `findOne`-mode traversal. -/
def visitedOne (sel : KTree → Bool) (t : KTree) : List KTree :=
  (descend (findVisCb sel true) ([], []) t.children).1.1

/-- Attribute record with a given id and neutral defaults: a visible container
with no cache, no clip, default composite operation. -/
def mkData (i : Nat) : NodeData :=
  ⟨i, false, true, true, none, true, none, none, none, none, false,
    "source-over", ⟨0, 0, 0, 0⟩, idAffine⟩

/-- Attribute record of a visible leaf shape with a given id. -/
def mkShape (i : Nat) : NodeData :=
  { mkData i with isShape := true }

/-- Demo selector: nodes whose id is at least 3. -/
def demoSel (t : KTree) : Bool := 3 ≤ t.data.id

/-- Demo tree: container 0 with children [container 1 [shape 3], shape 4]. -/
def demoTree : KTree :=
  .node (mkData 0)
    [.node (mkData 1) [.node (mkShape 3) []], .node (mkShape 4) []]

/-! ## Definitions: dual-surface rendering traces -/

/-- Truthiness of a JavaScript number-or-undefined attribute: `undefined` and
`0` are falsy, any other number is truthy. -/
def truthy : Option Rat → Bool
  | none => false
  | some q => decide (q ≠ 0)

/-- The two rendering passes. -/
inductive Pass where
  | scene
  | hit
deriving DecidableEq

/-- One drawing-surface operation.  Operations emitted on behalf of a specific
node carry that node's id (and, for transforms, the `top` boundary the
absolute transform was computed against); bitmap blits carry the opaque
bitmap id; `save`/`restore` are anonymous, as on the real surface. -/
inductive CtxOp where
  | save
  | restore
  | transformAbs (id : Nat) (top : Option Nat)
  | transformAbsInv (id : Nat) (top : Option Nat)
  | blitScene (bmp : Nat)
  | blitHit (bmp : Nat)
  | beginPath (id : Nat)
  | clipFuncCall (id : Nat)
  | clipRect (x y w h : Option Rat)
  | clipCommit (id : Nat)
  | applyComposite (id : Nat) (op : String)
  | shapeRender (p : Pass) (id : Nat)
deriving DecidableEq

/-- The clip condition of `_drawChildren` (src/Container.ts line 380):
`(clipWidth && clipHeight) || clipFunc` under JavaScript truthiness. -/
def hasClipB (d : NodeData) : Bool :=
  (truthy d.clipWidth && truthy d.clipHeight) || d.clipFunc

/-- The composite condition of `_drawChildren` (src/Container.ts lines
402-405): `!selfCache && globalCompositeOperation() !== 'source-over' &&
drawMethod === 'drawScene'` where `selfCache = (top === this)`. -/
def hasCompB (p : Pass) (top : Option Nat) (d : NodeData) : Bool :=
  !(top == some d.id) && d.gco != "source-over" && (p == Pass.scene)

/-- The clip preamble of `_drawChildren` (src/Container.ts lines 384-400):
save, absolute transform, begin path, the user clip callback or the clip
rectangle, commit the clip, inverse transform. -/
def clipOps (d : NodeData) (top : Option Nat) : List CtxOp :=
  [.save, .transformAbs d.id top, .beginPath d.id] ++
  (if d.clipFunc then [.clipFuncCall d.id]
   else [.clipRect d.clipX d.clipY d.clipWidth d.clipHeight]) ++
  [.clipCommit d.id, .transformAbsInv d.id top]

mutual

/-- `Container.drawScene` (src/Container.ts lines 330-352): resolve surface
(external; `caching` is the resolved `canvas.isCache`), gate
`if (!this.isVisible() && !caching) return`, then either replay the cached
scene bitmap (save, absolute transform against `top`, blit, restore) or
recurse via `_drawChildren`.  A leaf shape's own `drawScene` is external and
modelled as one opaque render operation behind the same visibility gate. -/
def drawScene (caching : Bool) (top : Option Nat) : KTree → List CtxOp
  | .node d cs =>
    if d.isShape then
      if !d.visible && !caching then [] else [.shapeRender .scene d.id]
    else
      if !d.visible && !caching then []
      else
        match d.cache with
        | some (s, _) => [.save, .transformAbs d.id top, .blitScene s, .restore]
        | none => drawChildren .scene caching top d cs
termination_by t => (sizeOf t, 1)

/-- `Container.drawHit` (src/Container.ts lines 353-374): gate
`if (!this.shouldDrawHit(top)) return` (`shouldDrawHit` is external, modelled
as the node's `hitGate` flag), then either replay the cached hit bitmap or
recurse via `_drawChildren`.  A leaf shape's `drawHit` is external and
modelled as one opaque render operation behind the same gate. -/
def drawHit (caching : Bool) (top : Option Nat) : KTree → List CtxOp
  | .node d cs =>
    if d.isShape then
      if !d.hitGate then [] else [.shapeRender .hit d.id]
    else
      if !d.hitGate then []
      else
        match d.cache with
        | some (_, hb) => [.save, .transformAbs d.id top, .blitHit hb, .restore]
        | none => drawChildren .hit caching top d cs
termination_by t => (sizeOf t, 1)

/-- `Container._drawChildren` (src/Container.ts lines 375-422): the clip
preamble if a clip applies, the composite save/apply if a non-default blend
applies, every child in sequence order via the pass-appropriate method, then
the composite restore (if applied) and the clip restore (if applied), in that
order. -/
def drawChildren (p : Pass) (caching : Bool) (top : Option Nat)
    (d : NodeData) (cs : List KTree) : List CtxOp :=
  (if hasClipB d then clipOps d top else []) ++
  (if hasCompB p top d then [.save, .applyComposite d.id d.gco] else []) ++
  drawKids p caching top cs ++
  (if hasCompB p top d then [.restore] else []) ++
  (if hasClipB d then [.restore] else [])
termination_by (sizeOf cs, 1)

/-- The children loop of `_drawChildren`: `child[drawMethod](canvas, top)` in
sequence order. -/
def drawKids (p : Pass) (caching : Bool) (top : Option Nat) :
    List KTree → List CtxOp
  | [] => []
  | c :: rest =>
    (match p with
     | .scene => drawScene caching top c
     | .hit => drawHit caching top c) ++ drawKids p caching top rest
termination_by cs => (sizeOf cs, 0)

end

/-- Save/restore stack-depth step; `none` records a restore on an empty
stack. -/
def srStep : Option Nat → CtxOp → Option Nat
  | none, _ => none
  | some n, .save => some (n + 1)
  | some n, .restore =>
    match n with
    | 0 => none
    | m + 1 => some m
  | some n, _ => some n

/-- Run a trace against a starting stack depth. -/
def srRun (l : List CtxOp) (n : Nat) : Option Nat :=
  l.foldl srStep (some n)

/-- Node id on whose behalf a context operation was emitted, if any. -/
def CtxOp.emitter : CtxOp → Option Nat
  | .transformAbs i _ => some i
  | .transformAbsInv i _ => some i
  | .beginPath i => some i
  | .clipFuncCall i => some i
  | .clipCommit i => some i
  | .applyComposite i _ => some i
  | .shapeRender _ i => some i
  | _ => none

/-- All node ids of a forest. -/
def idsF : List KTree → List Nat
  | [] => []
  | c :: rest => c.data.id :: (idsF c.children ++ idsF rest)
termination_by cs => sizeOf cs
decreasing_by
  all_goals (rcases c with ⟨d, cs⟩; simp [KTree.children]; try omega)

/-! ## Definitions: cache invalidation -/

mutual

/-- `Container._clearSelfAndDescendantCache` (src/Container.ts lines
313-323): first the base node clears this node's own computed-attribute
cache (external `Node` behaviour, modelled as clearing the `attrCache` slot;
cached canvas bitmaps live in the separate `cache` slot and are not
touched), then, if this node itself holds a cache bitmap (`isCached()`), the
walk returns without visiting the children; otherwise the clear is
propagated to every child.  Shape children have no children, so the uniform
recursion agrees with the base-node behaviour on them. -/
def clearWalk : KTree → KTree
  | .node d cs =>
    if d.cache.isSome then .node { d with attrCache := false } cs
    else .node { d with attrCache := false } (clearKids cs)

/-- The `children?.forEach` loop of `_clearSelfAndDescendantCache`. -/
def clearKids : List KTree → List KTree
  | [] => []
  | c :: rest => clearWalk c :: clearKids rest

end

/-- Pre-order list of the cached-bitmap slots of a forest. -/
def cacheList : List KTree → List (Option (Nat × Nat))
  | [] => []
  | c :: rest => c.data.cache :: (cacheList c.children ++ cacheList rest)
termination_by cs => sizeOf cs
decreasing_by
  all_goals (rcases c with ⟨d, cs⟩; simp [KTree.children]; try omega)

/-! ## Definitions: clip accessors -/

/-- Modelled from the spec: the accessor pair generated by the external
`Factory.addComponentsGetterSetter(Container, 'clip', ['x','y','width',
'height'])` (src/Container.ts lines 519-524).  Setting the clip rectangle
stores its four components into the four component attributes. -/
def setClip (d : NodeData) (r : Rect) : NodeData :=
  { d with clipX := some r.x, clipY := some r.y,
           clipWidth := some r.w, clipHeight := some r.h }

/-- Modelled from the spec: reading `container.clip()` returns the four
stored component attributes. -/
def getClip (d : NodeData) :
    Option Rat × Option Rat × Option Rat × Option Rat :=
  (d.clipX, d.clipY, d.clipWidth, d.clipHeight)

/-! ## Definitions: bounding-box aggregation (`getClientRect`) -/

/-- Modelled from the spec: `Node._transformedRect` (external, §4.3 step 5
"the standard absolute-transform chain") maps the rectangle's four corners
through the transform and returns their bounding box. -/
def transformedRect (m : Affine) (r : Rect) : Rect :=
  let p1 := applyAffine m (r.x, r.y)
  let p2 := applyAffine m (r.x + r.w, r.y)
  let p3 := applyAffine m (r.x, r.y + r.h)
  let p4 := applyAffine m (r.x + r.w, r.y + r.h)
  let mnx := min (min p1.1 p2.1) (min p3.1 p4.1)
  let mny := min (min p1.2 p2.2) (min p3.2 p4.2)
  let mxx := max (max p1.1 p2.1) (max p3.1 p4.1)
  let mxy := max (max p1.2 p2.2) (max p3.2 p4.2)
  ⟨mnx, mny, mxx - mnx, mxy - mny⟩

mutual

/-- The accumulation loop of `Container.getClientRect` (src/Container.ts
lines 442-471): skip invisible children; ask the child for its rect relative
to this container; skip degenerate results (zero width and zero height);
initialise the bounds on the first kept child, extend them afterwards. -/
def accKids (acc : Option (Rat × Rat × Rat × Rat)) :
    List KTree → Option (Rat × Rat × Rat × Rat)
  | [] => acc
  | c :: rest =>
    if !c.data.visible then accKids acc rest
    else
      let rect := childClientRect c
      if rect.w == 0 && rect.h == 0 then accKids acc rest
      else
        match acc with
        | none =>
          accKids (some (rect.x, rect.y, rect.x + rect.w, rect.y + rect.h)) rest
        | some (mx, my, bx, bb) =>
          accKids (some (min mx rect.x, min my rect.y,
            max bx (rect.x + rect.w), max bb (rect.y + rect.h))) rest
termination_by cs => (sizeOf cs, 2)

/-- `child.getClientRect({relativeTo: that, ...})` for one child: an external
leaf shape reports its given `shapeRect` (the shape's own computation is out
of scope); a container child runs the source algorithm — its local rectangle
transformed into the parent frame by `_transformedRect`, which for
`relativeTo = parent` is the child's own transform. -/
def childClientRect : KTree → Rect
  | .node d cs =>
    if d.isShape then d.shapeRect
    else transformedRect d.tf (selfRectF d cs)
termination_by t => (sizeOf t, 1)

/-- The local (untransformed) rectangle of `Container.getClientRect`
(src/Container.ts lines 434-497): the accumulated bounds, kept only when the
subtree contains an effectively visible shape (`find('Shape')` plus
`_isVisible(this)`) and bounds were accumulated; otherwise the canonical
empty rectangle `(0,0,0,0)`. -/
def selfRectF (_d : NodeData) (cs : List KTree) : Rect :=
  let acc := accKids none cs
  if anyVisShape cs then
    match acc with
    | some (mx, my, bx, bb) => ⟨mx, my, bx - mx, bb - my⟩
    | none => ⟨0, 0, 0, 0⟩
  else ⟨0, 0, 0, 0⟩
termination_by (sizeOf cs, 3)

/-- Modelled from the spec: the visibility-existence check of
`getClientRect` (src/Container.ts lines 473-482) — `this.find('Shape')`
walks every descendant shape in pre-order and `shape._isVisible(this)`
(external `Node`) holds when the shape and every ancestor strictly below
this container are visible.  This walk computes exactly that composite:
some descendant shape is visible and reachable through visible containers. -/
def anyVisShape : List KTree → Bool
  | [] => false
  | .node d cs :: rest =>
    (d.visible && (d.isShape || anyVisShape cs)) || anyVisShape rest
termination_by cs => (sizeOf cs, 0)

end

/-- `Container.getClientRect` (default options, container taken as the
root): the local rectangle transformed by `_transformedRect` with no
`relativeTo` — for a root container the absolute chain is the node's own
transform (the chain itself is the external `Node` collaborator).  With
`skipTransform` the local rectangle is returned as-is (src/Container.ts
lines 499-502). -/
def getClientRect (skipTransform : Bool) : KTree → Rect
  | .node d cs =>
    if skipTransform then selfRectF d cs
    else transformedRect d.tf (selfRectF d cs)

/-- Existence of an effectively visible descendant shape with respect to the
container owning the forest: a visible shape child, or a visible container
child whose own subtree has one (spec §4.3 step 4). -/
inductive HasVisShape : List KTree → Prop where
  | shape (c : KTree) (cs : List KTree) (h : c ∈ cs)
      (hv : c.data.visible = true) (hs : c.data.isShape = true) :
      HasVisShape cs
  | container (c : KTree) (cs : List KTree) (h : c ∈ cs)
      (hv : c.data.visible = true) (hrec : HasVisShape c.children) :
      HasVisShape cs

/-! ## Definitions: concrete demo instances for the remaining witnesses -/

/-- A container holding a cached scene bitmap `100` and hit bitmap `200`. -/
def demoCached : NodeData := { mkData 9 with cache := some (100, 200) }

/-- Scenario A's `shapeA`: visible, client rect `(0,0,10,10)`. -/
def shapeA : KTree :=
  .node { mkShape 1 with shapeRect := ⟨0, 0, 10, 10⟩ } []

/-- Scenario A's `shapeB`: invisible, client rect `(5,5,10,10)`. -/
def shapeB : KTree :=
  .node { mkShape 2 with visible := false, shapeRect := ⟨5, 5, 10, 10⟩ } []

/-- Scenario A's container: children `[shapeA, shapeB]`, identity
transform. -/
def scenarioA : KTree := .node (mkData 0) [shapeA, shapeB]

/-- A container with a `(20,20,20,20)` clip rectangle and a non-default
composite operation. -/
def demoClipComp : NodeData :=
  { mkData 8 with
    clipX := some 20
    clipY := some 20
    clipWidth := some 20
    clipHeight := some 20
    gco := "multiply" }

/-- A container whose clip width is `0` (clip disabled) and no clip
callback. -/
def demoClipZero : NodeData :=
  { mkData 11 with
    clipX := some 1
    clipY := some 2
    clipWidth := some 0
    clipHeight := some 5 }

/-! ## Theorems: world model -/

theorem upd_same (w : World) (x : Nat) (f : NodeRec → NodeRec) :
    upd w x f x = f (w x) := by
  simp [upd]

theorem upd_other (w : World) (x y : Nat) (f : NodeRec → NodeRec) (h : y ≠ x) :
    upd w x f y = w y := by
  simp [upd, h]

theorem Inv1.parent_of_mem {w : World} (hw : Inv1 w) {c k : Nat}
    (h : k ∈ (w c).children) : (w k).parent = some c := by
  rcases List.mem_iff_getElem?.mp h with ⟨i, hi⟩
  exact (hw c i k hi).1

theorem Inv1.not_mem_of_parent_none {w : World} (hw : Inv1 w) {k : Nat}
    (h : (w k).parent = none) : ∀ c, k ∉ (w c).children := by
  intro c hc
  have := hw.parent_of_mem hc
  rw [h] at this
  exact Option.noConfusion this

theorem attachChild_apply (w : World) (c k y : Nat) :
    (attachChild w c k) y =
      { parent := if y = k then some c else (w y).parent,
        index := if y = k then (w c).children.length else (w y).index,
        children := if y = c then (w y).children ++ [k] else (w y).children } := by
  unfold attachChild upd
  by_cases hyk : y = k <;> by_cases hyc : y = c
  · subst hyk; subst hyc; simp
  · subst hyk; simp [hyc, Ne.symm hyc]
  · subst hyc; simp [hyk, Ne.symm hyk]
  · simp [hyk, hyc]

theorem attachChild_children (w : World) (c k y : Nat) :
    ((attachChild w c k) y).children =
      if y = c then (w y).children ++ [k] else (w y).children := by
  rw [attachChild_apply]

theorem attachChild_parent (w : World) (c k y : Nat) :
    ((attachChild w c k) y).parent =
      if y = k then some c else (w y).parent := by
  rw [attachChild_apply]

theorem attachChild_index (w : World) (c k y : Nat) :
    ((attachChild w c k) y).index =
      if y = k then (w c).children.length else (w y).index := by
  rw [attachChild_apply]

theorem setIdxFrom_children (w : World) (n : Nat) (cs : List Nat) (y : Nat) :
    ((setIdxFrom w n cs) y).children = (w y).children := by
  induction cs generalizing w n with
  | nil => rfl
  | cons c rest ih =>
    rw [setIdxFrom, ih]
    unfold upd
    by_cases hyc : y = c <;> simp [hyc]

theorem setIdxFrom_parent (w : World) (n : Nat) (cs : List Nat) (y : Nat) :
    ((setIdxFrom w n cs) y).parent = (w y).parent := by
  induction cs generalizing w n with
  | nil => rfl
  | cons c rest ih =>
    rw [setIdxFrom, ih]
    unfold upd
    by_cases hyc : y = c <;> simp [hyc]

theorem setIdxFrom_not_mem (w : World) (n : Nat) (cs : List Nat) (y : Nat)
    (h : y ∉ cs) : (setIdxFrom w n cs) y = w y := by
  induction cs generalizing w n with
  | nil => rfl
  | cons c rest ih =>
    rw [setIdxFrom, ih _ _ (fun hy => h (List.mem_cons_of_mem _ hy))]
    exact upd_other _ _ _ _ (fun hyc => h (hyc ▸ List.mem_cons_self _ _))

theorem setIdxFrom_index (w : World) (n : Nat) (cs : List Nat) (x : Nat)
    (i : Nat) (hpos : cs[i]? = some x) (huniq : ∀ j, cs[j]? = some x → j = i) :
    ((setIdxFrom w n cs) x).index = n + i := by
  induction cs generalizing w n i with
  | nil => simp at hpos
  | cons c rest ih =>
    cases i with
    | zero =>
      simp only [List.getElem?_cons_zero, Option.some.injEq] at hpos
      have hx : x ∉ rest := by
        intro hmem
        rcases List.mem_iff_getElem?.mp hmem with ⟨j, hj⟩
        have : j + 1 = 0 := huniq (j + 1) (by simpa using hj)
        omega
      rw [setIdxFrom, setIdxFrom_not_mem _ _ _ _ hx, ← hpos, upd_same]
      simp
    | succ i =>
      simp only [List.getElem?_cons_succ] at hpos
      rw [setIdxFrom]
      have := ih (upd w c fun r => { r with index := n }) (n + 1) i hpos
        (fun j hj => by
          have : j + 1 = i + 1 := huniq (j + 1) (by simpa using hj)
          omega)
      rw [this]
      omega

theorem detachFrom_children (w : World) (a k y : Nat) :
    ((detachFrom w a k) y).children =
      if y = a then (w a).children.eraseIdx (w k).index else (w y).children := by
  unfold detachFrom
  by_cases hyk : y = k <;> by_cases hya : y = a
  · subst hyk; subst hya; simp [upd, setIdxFrom_children]
  · subst hyk; simp [upd, hya, Ne.symm hya, setIdxFrom_children]
  · subst hya; simp [upd, hyk, Ne.symm hyk, setIdxFrom_children]
  · simp [upd, hyk, hya, setIdxFrom_children]

theorem detachFrom_parent (w : World) (a k y : Nat) :
    ((detachFrom w a k) y).parent =
      if y = k then none else (w y).parent := by
  unfold detachFrom
  by_cases hyk : y = k <;> by_cases hya : y = a
  · subst hyk; subst hya; simp [upd, setIdxFrom_parent]
  · subst hyk; simp [upd, hya, Ne.symm hya, setIdxFrom_parent]
  · subst hya; simp [upd, hyk, Ne.symm hyk, setIdxFrom_parent]
  · simp [upd, hyk, hya, setIdxFrom_parent]

theorem detachFrom_index_of_uniq_pos (w : World) (a k y j : Nat) (hyk : y ≠ k)
    (hpos : ((w a).children.eraseIdx (w k).index)[j]? = some y)
    (huniq : ∀ j', ((w a).children.eraseIdx (w k).index)[j']? = some y → j' = j) :
    ((detachFrom w a k) y).index = j := by
  unfold detachFrom
  rw [upd_other _ _ _ _ hyk]
  have hcs : ((upd w a fun r =>
      { r with children := r.children.eraseIdx (w k).index }) a).children =
      (w a).children.eraseIdx (w k).index := by
    simp [upd]
  rw [hcs]
  have := setIdxFrom_index
    (upd w a fun r => { r with children := r.children.eraseIdx (w k).index })
    0 ((w a).children.eraseIdx (w k).index) y j hpos huniq
  rw [this]
  omega

theorem detachFrom_index_of_not_mem (w : World) (a k y : Nat) (hyk : y ≠ k)
    (hmem : y ∉ (w a).children.eraseIdx (w k).index) :
    ((detachFrom w a k) y).index = (w y).index := by
  unfold detachFrom
  rw [upd_other _ _ _ _ hyk]
  have hcs : ((upd w a fun r =>
      { r with children := r.children.eraseIdx (w k).index }) a).children =
      (w a).children.eraseIdx (w k).index := by
    simp [upd]
  rw [hcs, setIdxFrom_not_mem _ _ _ _ hmem]
  by_cases hya : y = a <;> simp [upd, hya]

theorem attachChild_inv {w : World} {k : Nat} (hw : Inv1 w)
    (hfresh : ∀ c, k ∉ (w c).children) (c : Nat) :
    Inv1 (attachChild w c k) := by
  intro c' i k' h
  rw [attachChild_children] at h
  rw [attachChild_parent, attachChild_index]
  by_cases hc : c' = c
  · subst hc
    rw [if_pos rfl] at h
    by_cases hi : i < (w c').children.length
    · rw [List.getElem?_append_left hi] at h
      have hk' : k' ≠ k := by
        intro he
        subst he
        exact hfresh c' (List.mem_iff_getElem?.mpr ⟨i, h⟩)
      rcases hw c' i k' h with ⟨hp, hidx⟩
      simp [hk', hp, hidx]
    · push_neg at hi
      rw [List.getElem?_append_right hi] at h
      have hj : i - (w c').children.length = 0 ∧ k' = k := by
        cases hj' : i - (w c').children.length with
        | zero => rw [hj'] at h; simp at h; exact ⟨rfl, h.symm⟩
        | succ m => rw [hj'] at h; simp at h
      obtain ⟨hj0, rfl⟩ := hj
      have hil : i = (w c').children.length := by omega
      simp [hil]
  · rw [if_neg hc] at h
    have hk' : k' ≠ k := by
      intro he
      subst he
      exact hfresh c' (List.mem_iff_getElem?.mpr ⟨i, h⟩)
    rcases hw c' i k' h with ⟨hp, hidx⟩
    simp [hk', hp, hidx, hc]

theorem detachFrom_inv {w : World} (hw : Inv1 w) {k a : Nat}
    (hp : (w k).parent = some a) : Inv1 (detachFrom w a k) := by
  intro c' i k' h
  rw [detachFrom_children] at h
  by_cases hca : c' = a
  · subst hca
    rw [if_pos rfl, List.getElem?_eraseIdx] at h
    by_cases hlt : i < (w k).index
    · rw [if_pos hlt] at h
      rcases hw c' i k' h with ⟨hpk, hik⟩
      have hne : k' ≠ k := by
        intro he
        subst he
        omega
      constructor
      · rw [detachFrom_parent, if_neg hne]
        exact hpk
      · refine detachFrom_index_of_uniq_pos w c' k k' i hne ?_ ?_
        · rw [List.getElem?_eraseIdx, if_pos hlt]
          exact h
        · intro j' hj'
          rw [List.getElem?_eraseIdx] at hj'
          by_cases hjlt : j' < (w k).index
          · rw [if_pos hjlt] at hj'
            have := (hw c' j' k' hj').2
            omega
          · rw [if_neg hjlt] at hj'
            have := (hw c' (j' + 1) k' hj').2
            omega
    · rw [if_neg hlt] at h
      rcases hw c' (i + 1) k' h with ⟨hpk, hik⟩
      have hne : k' ≠ k := by
        intro he
        subst he
        omega
      constructor
      · rw [detachFrom_parent, if_neg hne]
        exact hpk
      · refine detachFrom_index_of_uniq_pos w c' k k' i hne ?_ ?_
        · rw [List.getElem?_eraseIdx, if_neg hlt]
          exact h
        · intro j' hj'
          rw [List.getElem?_eraseIdx] at hj'
          by_cases hjlt : j' < (w k).index
          · rw [if_pos hjlt] at hj'
            have := (hw c' j' k' hj').2
            omega
          · rw [if_neg hjlt] at hj'
            have := (hw c' (j' + 1) k' hj').2
            omega
  · rw [if_neg hca] at h
    rcases hw c' i k' h with ⟨hpk, hik⟩
    have hne : k' ≠ k := by
      intro he
      subst he
      rw [hp] at hpk
      exact hca (Option.some.inj hpk).symm
    have hnm : k' ∉ (w a).children.eraseIdx (w k).index := by
      intro hmem
      rcases List.mem_iff_getElem?.mp hmem with ⟨j, hj⟩
      rw [List.getElem?_eraseIdx] at hj
      by_cases hjlt : j < (w k).index
      · rw [if_pos hjlt] at hj
        have := (hw a j k' hj).1
        rw [hpk] at this
        exact hca (Option.some.inj this)
      · rw [if_neg hjlt] at hj
        have := (hw a (j + 1) k' hj).1
        rw [hpk] at this
        exact hca (Option.some.inj this)
    constructor
    · rw [detachFrom_parent, if_neg hne]
      exact hpk
    · rw [detachFrom_index_of_not_mem w a k k' hne hnm]
      exact hik

theorem removeOp_inv {w : World} (hw : Inv1 w) (k : Nat) :
    Inv1 (removeOp w k) := by
  unfold removeOp
  cases hp : (w k).parent with
  | none => exact hw
  | some a => exact detachFrom_inv hw hp

theorem removeOp_parent_self (w : World) (k : Nat) :
    ((removeOp w k) k).parent = none := by
  unfold removeOp
  cases hp : (w k).parent with
  | none => exact hp
  | some a => rw [detachFrom_parent, if_pos rfl]

theorem addOp_inv {w : World} (hw : Inv1 w) (val : Nat → Bool) (c k : Nat) :
    Inv1 (addOp val w c k) := by
  unfold addOp
  cases hp : (w k).parent with
  | some a =>
    have h1 : Inv1 (removeOp w k) := removeOp_inv hw k
    exact attachChild_inv h1 (h1.not_mem_of_parent_none (removeOp_parent_self w k)) c
  | none =>
    by_cases hv : val k
    · rw [if_pos hv]
      exact attachChild_inv hw (hw.not_mem_of_parent_none hp) c
    · rw [if_neg hv]
      exact hw

theorem applyOp_inv {w : World} (hw : Inv1 w) (val : Nat → Bool) (op : Op) :
    Inv1 (applyOp val w op) := by
  cases op with
  | add c k => exact addOp_inv hw val c k
  | rem k => exact removeOp_inv hw k

theorem applyOps_inv {w : World} (hw : Inv1 w) (val : Nat → Bool)
    (ops : List Op) : Inv1 (applyOps val ops w) := by
  induction ops generalizing w with
  | nil => exact hw
  | cons op rest ih => exact ih (applyOp_inv hw val op)

/-- C1: for every container `C` and every sequence of add/remove operations,
after each operation returns (i.e. after every prefix of the sequence), every
child `K` at position `i` of `C.children` satisfies `K.parent = C` and
`K.index = i`.  The validation hook `_validateAdd` is arbitrary (`val`), and
the starting world is any world satisfying the invariant. -/
theorem add_remove_preserves_index_invariant (val : Nat → Bool)
    (ops : List Op) (w : World) (hw : Inv1 w) (n : Nat) :
    Inv1 (applyOps val (ops.take n) w) :=
  applyOps_inv hw val (ops.take n)

/-- Witness for the index invariant: run `add(0,1); add(0,2); remove 1` from
the empty world. -/
theorem add_remove_preserves_index_invariant_witness :
    Inv1 (applyOps (fun _ => true)
      ([Op.add 0 1, Op.add 0 2, Op.rem 1].take 3) emptyWorld) :=
  add_remove_preserves_index_invariant (fun _ => true)
    [Op.add 0 1, Op.add 0 2, Op.rem 1] emptyWorld
    (by intro c i k h; simp [emptyWorld] at h) 3

/-- C2: adding a node `k` that already has a parent `a` to a different
container `b` relocates it: afterwards `k` is in `b`'s children and not in
`a`'s, its parent reference is `b`, it is in no other container's children
(at most one parent after the call), before the call it was only in `a`
(exactly one parent before), and in the intermediate detached state produced
by `moveTo`'s removal step it is in no children list at all — so at no moment
does it have two parents.  The result holds for every validation hook `val`,
including one rejecting `k`: the relocation branch of `add` never consults
`_validateAdd`, so the add is not rejected.  Referential identity is inherent:
it is the same id `k` that moves. -/
theorem add_relocates_parented_node (val : Nat → Bool) (w : World)
    (a b k : Nat) (hw : Inv1 w) (hab : a ≠ b) (hmem : k ∈ (w a).children) :
    k ∈ ((addOp val w b k) b).children ∧
    k ∉ ((addOp val w b k) a).children ∧
    ((addOp val w b k) k).parent = some b ∧
    (∀ c, k ∈ ((addOp val w b k) c).children → c = b) ∧
    (∀ c, k ∈ (w c).children → c = a) ∧
    (∀ c, k ∉ ((removeOp w k) c).children) := by
  have hpa : (w k).parent = some a := hw.parent_of_mem hmem
  have haddeq : addOp val w b k = attachChild (removeOp w k) b k := by
    unfold addOp
    rw [hpa]
  have hrm : Inv1 (removeOp w k) := removeOp_inv hw k
  have hfr : ∀ c, k ∉ ((removeOp w k) c).children :=
    hrm.not_mem_of_parent_none (removeOp_parent_self w k)
  have hinv' : Inv1 (addOp val w b k) := addOp_inv hw val b k
  refine ⟨?_, ?_, ?_, ?_, ?_, hfr⟩
  · rw [haddeq, attachChild_children, if_pos rfl]
    simp
  · rw [haddeq, attachChild_children, if_neg hab]
    exact hfr a
  · rw [haddeq, attachChild_parent, if_pos rfl]
  · intro c hc
    have h1 := hinv'.parent_of_mem hc
    rw [haddeq, attachChild_parent, if_pos rfl] at h1
    exact (Option.some.inj h1).symm
  · intro c hc
    have h1 := hw.parent_of_mem hc
    rw [hpa] at h1
    exact (Option.some.inj h1).symm

/-- Witness for relocation: move node `7` from container `5` to container `6`
in `demoWorld`, with a validation hook that rejects everything (the move still
happens). -/
theorem add_relocates_parented_node_witness :
    7 ∈ ((addOp (fun _ => false) demoWorld 6 7) 6).children ∧
    7 ∉ ((addOp (fun _ => false) demoWorld 6 7) 5).children :=
  have h := add_relocates_parented_node (fun _ => false) demoWorld 5 6 7
    (by
      intro c i k h
      simp only [demoWorld] at h
      split_ifs at h with h5 h7
      · cases i with
        | zero =>
          simp at h
          subst h
          simp [demoWorld, h5]
        | succ m => simp at h
      · cases i <;> simp at h
      · cases i <;> simp at h)
    (by decide)
    (by simp [demoWorld])
  ⟨h.1, h.2.1⟩

/-! ## Theorems: subtree search -/

theorem takeWhile_append_of_isSome {α : Type} (p : α → Bool) (l m : List α)
    (h : (l.find? p).isSome) :
    (l ++ m).takeWhile (fun x => !p x) = l.takeWhile (fun x => !p x) := by
  induction l with
  | nil => simp [List.find?] at h
  | cons a l ih =>
    by_cases ha : p a
    · simp [List.takeWhile_cons, ha]
    · rw [List.find?_cons_of_neg _ ha] at h
      simp [List.takeWhile_cons, ha, ih h]

theorem takeWhile_append_of_none {α : Type} (p : α → Bool) (l m : List α)
    (h : l.find? p = none) :
    (l ++ m).takeWhile (fun x => !p x) = l ++ m.takeWhile (fun x => !p x) := by
  induction l with
  | nil => simp
  | cons a l ih =>
    have ha : ¬ p a = true := by
      intro hpa
      rw [List.find?_cons_of_pos _ hpa] at h
      exact Option.noConfusion h
    rw [List.find?_cons_of_neg _ ha] at h
    simp [List.takeWhile_cons, ha, ih h]

theorem descend_findCb_of_false (sel : KTree → Bool) (cs : List KTree) :
    ∀ st, descend (findCb sel false) st cs =
      (st ++ (preorderF cs).filter sel, false) := by
  induction cs using preorderF.induct with
  | case1 =>
    intro st
    simp [descend, preorderF]
  | case2 c rest ih1 ih2 =>
    intro st
    rw [descend]
    simp only [findCb, Bool.and_false]
    by_cases he : c.children.isEmpty
    · have hce : c.children = [] := by simpa using he
      rw [preorderF]
      by_cases hc : sel c <;>
        simp [he, hce, preorderF, hc, ih2]
    · rw [preorderF]
      by_cases hc : sel c <;>
        simp [he, hc, ih1, ih2]

theorem descend_findCb_of_one (sel : KTree → Bool) (cs : List KTree) :
    ∀ st, descend (findCb sel true) st cs =
      match (preorderF cs).find? sel with
      | some m => (st ++ [m], true)
      | none => (st, false) := by
  induction cs using preorderF.induct with
  | case1 =>
    intro st
    simp [descend, preorderF]
  | case2 c rest ih1 ih2 =>
    intro st
    rw [descend, preorderF]
    by_cases hc : sel c
    · simp [findCb, hc, List.find?_cons_of_pos]
    · by_cases he : c.children.isEmpty
      · have hce : c.children = [] := by simpa using he
        cases hm : (preorderF rest).find? sel with
        | some m =>
          simp [findCb, hc, he, hce, preorderF, ih2, hm, List.find?_cons_of_neg]
        | none =>
          simp [findCb, hc, he, hce, preorderF, ih2, hm, List.find?_cons_of_neg]
      · cases hm : (preorderF c.children).find? sel with
        | some m =>
          simp [findCb, hc, he, ih1, hm, List.find?_cons_of_neg,
            List.find?_append]
        | none =>
          cases hm2 : (preorderF rest).find? sel with
          | some m =>
            simp [findCb, hc, he, ih1, ih2, hm, hm2, List.find?_cons_of_neg,
              List.find?_append]
          | none =>
            simp [findCb, hc, he, ih1, ih2, hm, hm2, List.find?_cons_of_neg,
              List.find?_append]

theorem descend_findVisCb_of_one (sel : KTree → Bool) (cs : List KTree) :
    ∀ vis st, descend (findVisCb sel true) (vis, st) cs =
      match (preorderF cs).find? sel with
      | some m =>
        ((vis ++ ((preorderF cs).takeWhile fun n => !sel n) ++ [m],
          st ++ [m]), true)
      | none => ((vis ++ preorderF cs, st), false) := by
  induction cs using preorderF.induct with
  | case1 =>
    intro vis st
    simp [descend, preorderF]
  | case2 c rest ih1 ih2 =>
    intro vis st
    rw [descend, preorderF]
    by_cases hc : sel c
    · simp [findVisCb, hc, List.find?_cons_of_pos, List.takeWhile_cons]
    · by_cases he : c.children.isEmpty
      · have hce : c.children = [] := by simpa using he
        cases hm : (preorderF rest).find? sel with
        | some m =>
          simp [findVisCb, hc, he, hce, preorderF, ih2, hm,
            List.find?_cons_of_neg, List.takeWhile_cons]
        | none =>
          simp [findVisCb, hc, he, hce, preorderF, ih2, hm,
            List.find?_cons_of_neg, List.takeWhile_cons]
      · cases hm : (preorderF c.children).find? sel with
        | some m =>
          have htw := takeWhile_append_of_isSome sel (preorderF c.children)
            (preorderF rest) (by simp [hm])
          simp [findVisCb, hc, he, ih1, hm, List.find?_cons_of_neg,
            List.find?_append, List.takeWhile_cons, htw]
        | none =>
          have htw := takeWhile_append_of_none sel (preorderF c.children)
            (preorderF rest) hm
          cases hm2 : (preorderF rest).find? sel with
          | some m =>
            simp [findVisCb, hc, he, ih1, ih2, hm, hm2, List.find?_cons_of_neg,
              List.find?_append, List.takeWhile_cons, htw]
          | none =>
            simp [findVisCb, hc, he, ih1, ih2, hm, hm2, List.find?_cons_of_neg,
              List.find?_append, List.takeWhile_cons, htw]

/-- C3: for every tree and every selector (string selectors are delegated to
the external node matcher, so a selector is its denotation `sel`) matching at
least one node, `find` returns exactly the matching nodes in pre-order
depth-first order; `findOne` returns the first of them; and the
`findOne`-mode traversal visits exactly the non-matching pre-order prefix
followed by that first match — no node after it. -/
theorem find_preorder_findOne_first (sel : KTree → Bool) (t : KTree)
    (m : KTree) (hk : ((preorderF t.children).filter sel).head? = some m) :
    find sel t = (preorderF t.children).filter sel ∧
    findOne sel t = some m ∧
    visitedOne sel t =
      ((preorderF t.children).takeWhile fun n => !sel n) ++ [m] := by
  have hfind : (preorderF t.children).find? sel = some m := by
    rw [← List.filter_head?]
    exact hk
  refine ⟨?_, ?_, ?_⟩
  · unfold find generalFind
    rw [descend_findCb_of_false]
    simp
  · unfold findOne generalFind
    rw [descend_findCb_of_one, hfind]
    simp
  · unfold visitedOne
    rw [descend_findVisCb_of_one, hfind]
    simp

/-- Witness for C3 on the demo tree: the selector "id at least 3" matches the
nested shape 3 (first in pre-order) and shape 4. -/
theorem find_preorder_findOne_first_witness :
    find demoSel demoTree = (preorderF demoTree.children).filter demoSel ∧
    findOne demoSel demoTree = some (.node (mkShape 3) []) ∧
    visitedOne demoSel demoTree =
      ((preorderF demoTree.children).takeWhile fun n => !demoSel n) ++
        [.node (mkShape 3) []] :=
  find_preorder_findOne_first demoSel demoTree (.node (mkShape 3) [])
    (by simp [demoTree, preorderF, KTree.children, demoSel, KTree.data,
      mkData, mkShape])

/-- C10: a selector matching no node in the subtree makes `findOne` return
the absent value and `find` the empty array; no error is raised (the model is
total). -/
theorem find_nomatch_empty (sel : KTree → Bool) (t : KTree)
    (h : ∀ n ∈ preorderF t.children, sel n = false) :
    find sel t = [] ∧ findOne sel t = none := by
  have hfil : (preorderF t.children).filter sel = [] :=
    List.filter_eq_nil_iff.mpr (fun a ha => by simp [h a ha])
  have hfind : (preorderF t.children).find? sel = none :=
    List.find?_eq_none.mpr (fun a ha => by simp [h a ha])
  constructor
  · unfold find generalFind
    rw [descend_findCb_of_false]
    simp [hfil]
  · unfold findOne generalFind
    rw [descend_findCb_of_one, hfind]
    simp

/-- Witness for C10: the never-matching selector on the demo tree. -/
theorem find_nomatch_empty_witness :
    find (fun _ => false) demoTree = [] ∧
    findOne (fun _ => false) demoTree = none :=
  find_nomatch_empty (fun _ => false) demoTree (fun _ _ => rfl)

/-! ## Theorems: cached draw calls (C4) -/

/-- C4: a container that holds a cached bitmap and passes the pass's gate
(scene: visible or rendering into a cache target; hit: `shouldDrawHit`)
replays the bitmap as save / absolute transform relative to the optional
`top` boundary / blit / restore — for both `drawScene` and `drawHit` — and
performs no recursion into children: the trace does not depend on the
children at all. -/
theorem draw_cached_replays_bitmap (caching : Bool) (top : Option Nat)
    (d : NodeData) (cs : List KTree) (s hb : Nat)
    (hcache : d.cache = some (s, hb)) (hshape : d.isShape = false)
    (hvis : d.visible = true ∨ caching = true) (hhit : d.hitGate = true) :
    drawScene caching top (.node d cs) =
      [.save, .transformAbs d.id top, .blitScene s, .restore] ∧
    drawHit caching top (.node d cs) =
      [.save, .transformAbs d.id top, .blitHit hb, .restore] ∧
    drawScene caching top (.node d cs) = drawScene caching top (.node d []) ∧
    drawHit caching top (.node d cs) = drawHit caching top (.node d []) := by
  have hg : (!d.visible && !caching) = false := by
    rcases hvis with h | h <;> simp [h]
  refine ⟨?_, ?_, ?_, ?_⟩ <;>
    simp [drawScene, drawHit, hshape, hg, hhit, hcache]

/-- Witness for C4: the cached demo container, drawn with a shape child
present — the trace replays bitmaps `100` / `200` and ignores the child. -/
theorem draw_cached_replays_bitmap_witness :
    drawScene false none (.node demoCached [.node (mkShape 3) []]) =
      [.save, .transformAbs demoCached.id none, .blitScene 100, .restore] ∧
    drawHit false none (.node demoCached [.node (mkShape 3) []]) =
      [.save, .transformAbs demoCached.id none, .blitHit 200, .restore] :=
  have h := draw_cached_replays_bitmap false none demoCached
    [.node (mkShape 3) []] 100 200 rfl rfl (Or.inl rfl) rfl
  ⟨h.1, h.2.1⟩

/-! ## Theorems: cache-invalidation walk (C5) -/

theorem cacheList_clearKids (f : List KTree) :
    cacheList (clearKids f) = cacheList f := by
  induction f using preorderF.induct with
  | case1 => simp [clearKids, cacheList]
  | case2 c rest ih1 ih2 =>
    rcases c with ⟨d, cs⟩
    simp only [KTree.children] at ih1
    by_cases hc : d.cache.isSome
    · simp [clearKids, clearWalk, hc, cacheList, KTree.data, KTree.children,
        ih2]
    · simp [clearKids, clearWalk, hc, cacheList, KTree.data, KTree.children,
        ih1, ih2]

/-- C5: the cache-invalidation walk clears this node's own attribute cache
but returns the children untouched when the node itself holds a cache bitmap
(no descent past a cached node); it propagates to every child otherwise; and
it leaves every cached bitmap in the tree — in particular a cached
descendant's bitmap content — unchanged. -/
theorem clear_cache_walk_stops_at_cached (d : NodeData) (cs : List KTree)
    (hc : d.cache.isSome = true) :
    clearWalk (.node d cs) = .node { d with attrCache := false } cs ∧
    (∀ (e : NodeData) (cs' : List KTree), e.cache = none →
      clearWalk (.node e cs') =
        .node { e with attrCache := false } (clearKids cs')) ∧
    (∀ t : KTree, cacheList [clearWalk t] = cacheList [t]) := by
  refine ⟨?_, ?_, ?_⟩
  · simp [clearWalk, hc]
  · intro e cs' h
    simp [clearWalk, h]
  · intro t
    have h := cacheList_clearKids [t]
    simpa [clearKids] using h

/-- Witness for C5: a cached container with a shape child; the walk clears
the attribute cache, keeps the child subtree untouched, and every bitmap
slot is unchanged. -/
theorem clear_cache_walk_stops_at_cached_witness :
    clearWalk (.node demoCached [.node (mkShape 3) []]) =
      .node { demoCached with attrCache := false } [.node (mkShape 3) []] :=
  (clear_cache_walk_stops_at_cached demoCached [.node (mkShape 3) []] rfl).1

/-! ## Theorems: bounding-box aggregation (C7, C8) -/

theorem HasVisShape.cons_of {c : KTree} {rest : List KTree}
    (h : HasVisShape rest) : HasVisShape (c :: rest) := by
  cases h with
  | shape c' cs' hm hv hs =>
    exact .shape c' _ (List.mem_cons_of_mem _ hm) hv hs
  | container c' cs' hm hv hr =>
    exact .container c' _ (List.mem_cons_of_mem _ hm) hv hr

theorem anyVisShape_iff (f : List KTree) :
    anyVisShape f = true ↔ HasVisShape f := by
  induction f using preorderF.induct with
  | case1 =>
    rw [anyVisShape]
    constructor
    · intro h
      exact absurd h (by simp)
    · intro h
      cases h with
      | shape c cs hm hv hs => simp at hm
      | container c cs hm hv hr => simp at hm
  | case2 c rest ih1 ih2 =>
    rcases c with ⟨d, cs⟩
    simp only [KTree.children] at ih1
    rw [anyVisShape]
    constructor
    · intro h
      rcases Bool.or_eq_true_iff.mp h with h1 | h2
      · rcases Bool.and_eq_true_iff.mp h1 with ⟨hv, h3⟩
        rcases Bool.or_eq_true_iff.mp h3 with hs | hr
        · exact .shape (.node d cs) _ (List.mem_cons_self _ _) hv hs
        · exact .container (.node d cs) _ (List.mem_cons_self _ _) hv
            (ih1.mp hr)
      · exact HasVisShape.cons_of (ih2.mp h2)
    · intro h
      cases h with
      | shape c' cs' hm hv hs =>
        rcases List.mem_cons.mp hm with rfl | hm'
        · simp only [KTree.data] at hv hs
          simp [hv, hs]
        · have := ih2.mpr (.shape c' _ hm' hv hs)
          simp [this]
      | container c' cs' hm hv hr =>
        rcases List.mem_cons.mp hm with rfl | hm'
        · simp only [KTree.data] at hv
          simp only [KTree.children] at hr
          simp [hv, ih1.mpr hr]
        · have := ih2.mpr (.container c' _ hm' hv hr)
          simp [this]

/-- C7: a container with zero children, or whose descendant shapes are all
not effectively visible with respect to it, reports a client rect of
(0,0,0,0).  The container's own transform is the identity (the
absolute-transform chain is the external `Node` collaborator; the canonical
empty rectangle is produced in the container's local frame). -/
theorem getClientRect_empty (d : NodeData) (cs : List KTree)
    (htf : d.tf = idAffine) (h : cs = [] ∨ ¬ HasVisShape cs) :
    getClientRect false (.node d cs) = ⟨0, 0, 0, 0⟩ := by
  have hvis : anyVisShape cs = false := by
    rcases h with rfl | h
    · rw [anyVisShape]
    · cases ha : anyVisShape cs with
      | true => exact absurd ((anyVisShape_iff cs).mp ha) h
      | false => rfl
  have hself : selfRectF d cs = ⟨0, 0, 0, 0⟩ := by
    rw [selfRectF, hvis]
    simp
  rw [getClientRect]
  simp only [if_false, Bool.false_eq_true]
  rw [hself, htf]
  simp [transformedRect, applyAffine, idAffine]

/-- Witness for C7: the empty container and an all-invisible-subtree
container both report (0,0,0,0). -/
theorem getClientRect_empty_witness :
    getClientRect false (.node (mkData 0) []) = ⟨0, 0, 0, 0⟩ :=
  getClientRect_empty (mkData 0) [] rfl (Or.inl rfl)

theorem bool_ne_true_of_eq_false {b : Bool} (h : b = false) : ¬ b = true := by
  rw [h]
  exact Bool.false_ne_true

/-- C8: the `getClientRect` loop aggregates exactly over the direct children
that are visible and whose recursively computed rectangles are not
degenerate (the accumulation equals a fold over that filtered sub-list); and
on Scenario A — `shapeA` visible with rect (0,0,10,10), `shapeB` invisible
with rect (5,5,10,10) — `getClientRect()` returns (0,0,10,10). -/
theorem getClientRect_aggregates_visible_nondegenerate :
    (∀ (cs : List KTree) (acc : Option (Rat × Rat × Rat × Rat)),
      accKids acc cs =
        (cs.filter fun c => c.data.visible &&
            !((childClientRect c).w == 0 && (childClientRect c).h == 0)).foldl
          (fun acc c =>
            match acc with
            | none => some ((childClientRect c).x, (childClientRect c).y,
                (childClientRect c).x + (childClientRect c).w,
                (childClientRect c).y + (childClientRect c).h)
            | some (mx, my, bx, bb) =>
              some (min mx (childClientRect c).x, min my (childClientRect c).y,
                max bx ((childClientRect c).x + (childClientRect c).w),
                max bb ((childClientRect c).y + (childClientRect c).h))) acc) ∧
    getClientRect false scenarioA = ⟨0, 0, 10, 10⟩ := by
  constructor
  · intro cs
    induction cs with
    | nil =>
      intro acc
      simp [accKids]
    | cons c rest ih =>
      intro acc
      simp only [accKids, List.filter_cons]
      by_cases hv : c.data.visible = true
      · by_cases hdeg : ((childClientRect c).w == 0 &&
            (childClientRect c).h == 0) = true
        · have hnv : (!c.data.visible) = false := by rw [hv]; rfl
          have hcond : (c.data.visible && !((childClientRect c).w == 0 &&
              (childClientRect c).h == 0)) = false := by
            rw [hv, hdeg]
            rfl
          rw [if_neg (bool_ne_true_of_eq_false hnv), if_pos hdeg,
            if_neg (bool_ne_true_of_eq_false hcond)]
          exact ih acc
        · have hnv : (!c.data.visible) = false := by rw [hv]; rfl
          have hdegf : ((childClientRect c).w == 0 &&
              (childClientRect c).h == 0) = false :=
            Bool.eq_false_iff.mpr hdeg
          have hcond : (c.data.visible && !((childClientRect c).w == 0 &&
              (childClientRect c).h == 0)) = true := by
            rw [hv, hdegf]
            rfl
          rw [if_neg (bool_ne_true_of_eq_false hnv), if_neg hdeg,
            if_pos hcond, List.foldl_cons]
          rcases acc with _ | ⟨mx, my, bx, bb⟩
          · exact ih _
          · exact ih _
      · have hvf : c.data.visible = false := Bool.eq_false_iff.mpr hv
        have hnv : (!c.data.visible) = true := by rw [hvf]; rfl
        have hcond : (c.data.visible && !((childClientRect c).w == 0 &&
            (childClientRect c).h == 0)) = false := by
          rw [hvf]
          rfl
        rw [if_pos hnv, if_neg (bool_ne_true_of_eq_false hcond)]
        exact ih acc
  · have haux : ((10 : Rat) == (0 : Rat)) = false := by decide
    have hacc : accKids none [shapeA, shapeB] = some (0, 0, 10, 10) := by
      simp [accKids, childClientRect, shapeA, shapeB, mkShape, mkData,
        KTree.data, haux]
    have hvis : anyVisShape [shapeA, shapeB] = true := by
      rw [shapeA, shapeB, anyVisShape]
      simp [mkShape, mkData]
    have hfinal : selfRectF (mkData 0) [shapeA, shapeB] = ⟨0, 0, 10, 10⟩ := by
      simp only [selfRectF]
      rw [hacc, hvis]
      norm_num
    rw [scenarioA, getClientRect, hfinal]
    have hid : (mkData 0).tf = idAffine := rfl
    rw [if_neg Bool.false_ne_true, hid]
    simp [transformedRect, applyAffine, idAffine]

/-! ## Theorems: clip and composite composition during child drawing -/

theorem foldl_srStep_none (l : List CtxOp) : l.foldl srStep none = none := by
  induction l with
  | nil => rfl
  | cons op rest ih => simp [srStep, ih]

theorem srRun_append (a b : List CtxOp) (n : Nat) :
    srRun (a ++ b) n =
      match srRun a n with
      | some m => srRun b m
      | none => none := by
  unfold srRun
  rw [List.foldl_append]
  cases h : List.foldl srStep (some n) a with
  | some m => rfl
  | none => exact foldl_srStep_none b

theorem srRun_append_some (a b : List CtxOp) (n m : Nat)
    (h : srRun a n = some m) : srRun (a ++ b) n = srRun b m := by
  rw [srRun_append, h]

theorem srRun_clipOps (d : NodeData) (top : Option Nat) (n : Nat) :
    srRun (clipOps d top) n = some (n + 1) := by
  by_cases hcf : d.clipFunc = true <;> simp [clipOps, hcf, srRun, srStep]

theorem srRun_saveComp (d : NodeData) (m : Nat) :
    srRun [CtxOp.save, CtxOp.applyComposite d.id d.gco] m = some (m + 1) :=
  rfl

theorem srRun_one_restore (m : Nat) :
    srRun [CtxOp.restore] (m + 1) = some m :=
  rfl

theorem srRun_two_restores (m : Nat) :
    srRun ([CtxOp.restore] ++ [CtxOp.restore]) (m + 1 + 1) = some m :=
  rfl

theorem drawKids_nil (p : Pass) (caching : Bool) (top : Option Nat) :
    drawKids p caching top [] = [] := by
  cases p <;> rw [drawKids.eq_def]

theorem drawKids_cons_scene (caching : Bool) (top : Option Nat) (c : KTree)
    (rest : List KTree) :
    drawKids Pass.scene caching top (c :: rest) =
      drawScene caching top c ++ drawKids Pass.scene caching top rest := by
  rw [drawKids.eq_def]

theorem drawKids_cons_hit (caching : Bool) (top : Option Nat) (c : KTree)
    (rest : List KTree) :
    drawKids Pass.hit caching top (c :: rest) =
      drawHit caching top c ++ drawKids Pass.hit caching top rest := by
  rw [drawKids.eq_def]

theorem drawKids_balanced (f : List KTree) :
    ∀ p caching top n, srRun (drawKids p caching top f) n = some n := by
  induction f using preorderF.induct with
  | case1 =>
    intro p caching top n
    rw [drawKids_nil]
    rfl
  | case2 c rest ih1 ih2 =>
    intro p caching top n
    rcases c with ⟨d, cs⟩
    simp only [KTree.children] at ih1
    have hdc : ∀ p' n', srRun (drawChildren p' caching top d cs) n' =
        some n' := by
      intro p' n'
      rw [drawChildren]
      by_cases hcl : hasClipB d = true <;> by_cases hcp : hasCompB p' top d = true
      · simp only [if_pos hcl, if_pos hcp]
        simp only [List.append_assoc]
        rw [srRun_append_some _ _ _ _ (srRun_clipOps d top n'),
          srRun_append_some _ _ _ _ (srRun_saveComp d (n' + 1)),
          srRun_append_some _ _ _ _ (ih1 p' caching top (n' + 1 + 1))]
        exact srRun_two_restores n'
      · simp only [if_pos hcl, if_neg hcp]
        simp only [List.append_assoc, List.nil_append, List.append_nil]
        rw [srRun_append_some _ _ _ _ (srRun_clipOps d top n'),
          srRun_append_some _ _ _ _ (ih1 p' caching top (n' + 1))]
        exact srRun_one_restore n'
      · simp only [if_neg hcl, if_pos hcp]
        simp only [List.append_assoc, List.nil_append, List.append_nil]
        rw [srRun_append_some _ _ _ _ (srRun_saveComp d n'),
          srRun_append_some _ _ _ _ (ih1 p' caching top (n' + 1))]
        exact srRun_one_restore n'
      · simp only [if_neg hcl, if_neg hcp]
        simp only [List.append_assoc, List.nil_append, List.append_nil]
        exact ih1 p' caching top n'
    have hsc : srRun (drawScene caching top (KTree.node d cs)) n = some n := by
      rw [drawScene]
      by_cases hs : d.isShape = true
      · rw [if_pos hs]
        by_cases hg : (!d.visible && !caching) = true
        · rw [if_pos hg]
          rfl
        · rw [if_neg hg]
          rfl
      · rw [if_neg hs]
        by_cases hg : (!d.visible && !caching) = true
        · rw [if_pos hg]
          rfl
        · rw [if_neg hg]
          cases hcch : d.cache with
          | some pr =>
            rcases pr with ⟨s, hb⟩
            rfl
          | none => exact hdc Pass.scene n
    have hht : srRun (drawHit caching top (KTree.node d cs)) n = some n := by
      rw [drawHit]
      by_cases hs : d.isShape = true
      · rw [if_pos hs]
        by_cases hg : (!d.hitGate) = true
        · rw [if_pos hg]
          rfl
        · rw [if_neg hg]
          rfl
      · rw [if_neg hs]
        by_cases hg : (!d.hitGate) = true
        · rw [if_pos hg]
          rfl
        · rw [if_neg hg]
          cases hcch : d.cache with
          | some pr =>
            rcases pr with ⟨s, hb⟩
            rfl
          | none => exact hdc Pass.hit n
    cases p with
    | scene =>
      rw [drawKids_cons_scene, srRun_append, hsc]
      exact ih2 Pass.scene caching top n
    | hit =>
      rw [drawKids_cons_hit, srRun_append, hht]
      exact ih2 Pass.hit caching top n

theorem emitter_drawChildren (p : Pass) (caching : Bool) (top : Option Nat)
    (d : NodeData) (cs : List KTree) {op : CtxOp} {i : Nat}
    (hk : ∀ o ∈ drawKids p caching top cs, ∀ j,
      CtxOp.emitter o = some j → j ∈ idsF cs)
    (hop : op ∈ drawChildren p caching top d cs)
    (hem : op.emitter = some i) :
    i = d.id ∨ i ∈ idsF cs := by
  rw [drawChildren] at hop
  simp only [List.mem_append] at hop
  rcases hop with (((h1 | h2) | h3) | h4) | h5
  · by_cases hcl : hasClipB d = true
    · rw [if_pos hcl] at h1
      by_cases hcf : d.clipFunc = true
      all_goals simp [clipOps, hcf] at h1
      all_goals
        rcases h1 with rfl | rfl | rfl | rfl | rfl | rfl <;>
          first
            | (simp [CtxOp.emitter] at hem; exact Or.inl hem.symm)
            | (simp [CtxOp.emitter] at hem; exact Or.inl hem)
            | simp [CtxOp.emitter] at hem
    · rw [if_neg hcl] at h1
      simp at h1
  · by_cases hcp : hasCompB p top d = true
    · rw [if_pos hcp] at h2
      simp at h2
      rcases h2 with rfl | rfl <;>
        first
          | (simp [CtxOp.emitter] at hem; exact Or.inl hem.symm)
          | (simp [CtxOp.emitter] at hem; exact Or.inl hem)
          | simp [CtxOp.emitter] at hem
    · rw [if_neg hcp] at h2
      simp at h2
  · exact Or.inr (hk op h3 i hem)
  · by_cases hcp : hasCompB p top d = true
    · rw [if_pos hcp] at h4
      simp at h4
      subst h4
      simp [CtxOp.emitter] at hem
    · rw [if_neg hcp] at h4
      simp at h4
  · by_cases hcl : hasClipB d = true
    · rw [if_pos hcl] at h5
      simp at h5
      subst h5
      simp [CtxOp.emitter] at hem
    · rw [if_neg hcl] at h5
      simp at h5

theorem emitter_mem (f : List KTree) :
    ∀ p caching top, ∀ op ∈ drawKids p caching top f, ∀ i,
      CtxOp.emitter op = some i → i ∈ idsF f := by
  induction f using preorderF.induct with
  | case1 =>
    intro p caching top op hop
    rw [drawKids_nil] at hop
    simp at hop
  | case2 c rest ih1 ih2 =>
    intro p caching top op hop i hem
    rcases c with ⟨d, cs⟩
    simp only [KTree.children] at ih1
    have hgoal : i = d.id ∨ i ∈ idsF cs ∨ i ∈ idsF rest →
        i ∈ idsF (KTree.node d cs :: rest) := by
      intro h
      rw [idsF]
      simp only [KTree.data, KTree.children, List.mem_cons, List.mem_append]
      tauto
    apply hgoal
    cases p with
    | scene =>
      rw [drawKids_cons_scene, List.mem_append] at hop
      rcases hop with hop' | hop'
      · have hmain : i = d.id ∨ i ∈ idsF cs := by
          rw [drawScene] at hop'
          by_cases hs : d.isShape = true
          · rw [if_pos hs] at hop'
            by_cases hg : (!d.visible && !caching) = true
            · rw [if_pos hg] at hop'
              simp at hop'
            · rw [if_neg hg] at hop'
              simp at hop'
              subst hop'
              simp [CtxOp.emitter] at hem
              exact Or.inl hem.symm
          · rw [if_neg hs] at hop'
            by_cases hg : (!d.visible && !caching) = true
            · rw [if_pos hg] at hop'
              simp at hop'
            · rw [if_neg hg] at hop'
              cases hcch : d.cache with
              | some pr =>
                rcases pr with ⟨s, hb⟩
                rw [hcch] at hop'
                simp at hop'
                rcases hop' with rfl | rfl | rfl | rfl <;>
                  first
                    | (simp [CtxOp.emitter] at hem; exact Or.inl hem.symm)
                    | (simp [CtxOp.emitter] at hem; exact Or.inl hem)
                    | simp [CtxOp.emitter] at hem
              | none =>
                rw [hcch] at hop'
                exact emitter_drawChildren Pass.scene caching top d cs
                  (fun o ho j hj => ih1 Pass.scene caching top o ho j hj)
                  hop' hem
        rcases hmain with h | h
        · exact Or.inl h
        · exact Or.inr (Or.inl h)
      · exact Or.inr (Or.inr (ih2 Pass.scene caching top op hop' i hem))
    | hit =>
      rw [drawKids_cons_hit, List.mem_append] at hop
      rcases hop with hop' | hop'
      · have hmain : i = d.id ∨ i ∈ idsF cs := by
          rw [drawHit] at hop'
          by_cases hs : d.isShape = true
          · rw [if_pos hs] at hop'
            by_cases hg : (!d.hitGate) = true
            · rw [if_pos hg] at hop'
              simp at hop'
            · rw [if_neg hg] at hop'
              simp at hop'
              subst hop'
              simp [CtxOp.emitter] at hem
              exact Or.inl hem.symm
          · rw [if_neg hs] at hop'
            by_cases hg : (!d.hitGate) = true
            · rw [if_pos hg] at hop'
              simp at hop'
            · rw [if_neg hg] at hop'
              cases hcch : d.cache with
              | some pr =>
                rcases pr with ⟨s, hb⟩
                rw [hcch] at hop'
                simp at hop'
                rcases hop' with rfl | rfl | rfl | rfl <;>
                  first
                    | (simp [CtxOp.emitter] at hem; exact Or.inl hem.symm)
                    | (simp [CtxOp.emitter] at hem; exact Or.inl hem)
                    | simp [CtxOp.emitter] at hem
              | none =>
                rw [hcch] at hop'
                exact emitter_drawChildren Pass.hit caching top d cs
                  (fun o ho j hj => ih1 Pass.hit caching top o ho j hj)
                  hop' hem
        rcases hmain with h | h
        · exact Or.inl h
        · exact Or.inr (Or.inl h)
      · exact Or.inr (Or.inr (ih2 Pass.hit caching top op hop' i hem))

theorem hasCompB_iff (p : Pass) (top : Option Nat) (d : NodeData) :
    hasCompB p top d = true ↔
      (p = Pass.scene ∧ d.gco ≠ "source-over" ∧ top ≠ some d.id) := by
  rw [hasCompB]
  simp only [Bool.and_eq_true, Bool.not_eq_true', beq_eq_false_iff_ne,
    bne_iff_ne, beq_iff_eq, ne_eq]
  tauto

/-- C6: drawing children applies a non-default composite operation exactly
when the pass is the scene pass, a non-default operation is configured, and
this container is not itself the `top` ("treat as root") target; and the
surface restores are emitted in strict LIFO order — when both clip and
composite apply, the trace is the clip save and clip setup, then the
composite save and apply, then the balanced children traces, then the
composite restore, then the clip restore. -/
theorem drawChildren_composite_and_lifo (p : Pass) (caching : Bool)
    (top : Option Nat) (d : NodeData) (cs : List KTree)
    (hfresh : d.id ∉ idsF cs) :
    (CtxOp.applyComposite d.id d.gco ∈ drawChildren p caching top d cs ↔
      (p = Pass.scene ∧ d.gco ≠ "source-over" ∧ top ≠ some d.id)) ∧
    (hasClipB d = true → hasCompB p top d = true →
      ∃ B, (∀ n, srRun B n = some n) ∧
        drawChildren p caching top d cs =
          [CtxOp.save, CtxOp.transformAbs d.id top, CtxOp.beginPath d.id] ++
          (if d.clipFunc then [CtxOp.clipFuncCall d.id]
           else [CtxOp.clipRect d.clipX d.clipY d.clipWidth d.clipHeight]) ++
          [CtxOp.clipCommit d.id, CtxOp.transformAbsInv d.id top] ++
          ([CtxOp.save, CtxOp.applyComposite d.id d.gco] ++ B ++
            [CtxOp.restore]) ++
          [CtxOp.restore]) := by
  constructor
  · rw [← hasCompB_iff p top d]
    constructor
    · intro h
      rw [drawChildren] at h
      simp only [List.mem_append] at h
      rcases h with (((h1 | h2) | h3) | h4) | h5
      · exfalso
        by_cases hcl : hasClipB d = true
        · rw [if_pos hcl] at h1
          by_cases hcf : d.clipFunc = true <;> simp [clipOps, hcf] at h1
        · rw [if_neg hcl] at h1
          simp at h1
      · by_cases hcp : hasCompB p top d = true
        · exact hcp
        · rw [if_neg hcp] at h2
          simp at h2
      · exact absurd (emitter_mem cs p caching top _ h3 d.id
          (by simp [CtxOp.emitter])) hfresh
      · exfalso
        by_cases hcp : hasCompB p top d = true
        · rw [if_pos hcp] at h4
          simp at h4
        · rw [if_neg hcp] at h4
          simp at h4
      · exfalso
        by_cases hcl : hasClipB d = true
        · rw [if_pos hcl] at h5
          simp at h5
        · rw [if_neg hcl] at h5
          simp at h5
    · intro h
      rw [drawChildren, if_pos h]
      simp
  · intro hcl hcp
    refine ⟨drawKids p caching top cs,
      fun n => drawKids_balanced cs p caching top n, ?_⟩
    rw [drawChildren]
    simp only [if_pos hcl, if_pos hcp]
    rw [clipOps]
    simp

/-- Witness for C6: the demo clip-and-composite container in a scene-pass
child draw emits its "multiply" composite application. -/
theorem drawChildren_composite_and_lifo_witness :
    CtxOp.applyComposite demoClipComp.id demoClipComp.gco ∈
      drawChildren Pass.scene false none demoClipComp [shapeA] :=
  ((drawChildren_composite_and_lifo Pass.scene false none demoClipComp
    [shapeA] (by
      simp [idsF, shapeA, KTree.data, KTree.children, mkShape, mkData,
        demoClipComp])).1).mpr
    ⟨rfl, by decide, by decide⟩

/-- C9: setting the clip rectangle (20,20,20,20) and reading it back yields
the same four values (the accessor pair is the external `Factory` product,
modelled from the spec); and whenever `clipWidth` or `clipHeight` is `0` and
no clip function is set, `_drawChildren` performs no clip: the trace has no
clip save/restore bracket and no clip commit for this container. -/
theorem clip_roundtrip_and_zero_clip_disables (p : Pass) (caching : Bool)
    (top : Option Nat) (d : NodeData) (cs : List KTree)
    (hz : d.clipWidth = some 0 ∨ d.clipHeight = some 0)
    (hcf : d.clipFunc = false) (hfresh : d.id ∉ idsF cs) :
    (∀ e : NodeData, getClip (setClip e ⟨20, 20, 20, 20⟩) =
      (some 20, some 20, some 20, some 20)) ∧
    hasClipB d = false ∧
    drawChildren p caching top d cs =
      (if hasCompB p top d then
        [CtxOp.save, CtxOp.applyComposite d.id d.gco] else []) ++
      drawKids p caching top cs ++
      (if hasCompB p top d then [CtxOp.restore] else []) ∧
    CtxOp.clipCommit d.id ∉ drawChildren p caching top d cs := by
  have hclip : hasClipB d = false := by
    rw [hasClipB, hcf]
    rcases hz with h | h <;> simp [h, truthy]
  refine ⟨fun e => rfl, ?_, ?_, ?_⟩
  · exact hclip
  · rw [drawChildren]
    simp only [if_neg (bool_ne_true_of_eq_false hclip)]
    simp
  · intro hmem
    rw [drawChildren] at hmem
    simp only [if_neg (bool_ne_true_of_eq_false hclip)] at hmem
    simp only [List.nil_append, List.mem_append] at hmem
    rcases hmem with ((h1 | h2) | h3) | h4
    · by_cases hcp : hasCompB p top d = true
      · rw [if_pos hcp] at h1
        simp at h1
      · rw [if_neg hcp] at h1
        simp at h1
    · exact hfresh (emitter_mem cs p caching top _ h2 d.id
        (by simp [CtxOp.emitter]))
    · by_cases hcp : hasCompB p top d = true
      · rw [if_pos hcp] at h3
        simp at h3
      · rw [if_neg hcp] at h3
        simp at h3
    · simp at h4

/-- Witness for C9: the zero-clip-width container draws its children with no
clip commit. -/
theorem clip_roundtrip_and_zero_clip_disables_witness :
    hasClipB demoClipZero = false ∧
    CtxOp.clipCommit demoClipZero.id ∉
      drawChildren Pass.scene false none demoClipZero [shapeA] :=
  have h := clip_roundtrip_and_zero_clip_disables Pass.scene false none
    demoClipZero [shapeA] (Or.inl rfl) rfl
    (by simp [idsF, shapeA, KTree.data, KTree.children, mkShape, mkData,
      demoClipZero])
  ⟨h.2.1, h.2.2.2⟩

end Konva
